import Mathlib

/-
Verification of the go-ObuFuku streaming XML rewrite engine.

The definitions below are a shallow embedding of the Go sources:
  - `crlfWriter.Write`   from the crlfWriter snapshot (LF → CRLF byte filter);
  - `Counter.Next`       from rules.go;
  - the rule structures  from rules.go;
  - `handleStartElement`, `handleCharData`, `handleEndElement`,
    `processStep`, `runFrom`, `run` from the final processor snapshot
    (the one with insert-after, prepend-child, wrap, raw/CDATA support).

The external XML tokenizer (Go's encoding/xml decoder) is out of scope of
the repository; the engine is parameterized by an abstract
`Tokenizer : String → Except String (List Event)` used only to re-tokenize
fragment templates, exactly as the Go code spins up a fresh xml.Decoder per
fragment.  Bytes are modelled as `Nat`, strings as Lean `String` (operating
on their `.data` character lists); whitespace is ASCII whitespace.
-/

namespace ObuFuku

/-- Attribute of a start tag: models xml.Attr (Name.Local and Value). -/
structure Attr where
  name : String
  value : String
deriving DecidableEq, Repr

/-- Parse events produced by the external tokenizer: models the xml.Token
cases the processor distinguishes (StartElement, CharData, EndElement, and
everything else passed through opaquely). -/
inductive Event where
  | startTag : String → List Attr → Event
  | text : String → Event
  | endTag : String → Event
  | other : String → Event
deriving DecidableEq, Repr

/-- Output tokens.  `startTag`/`text`/`endTag`/`other` go through the
escaping xml.Encoder; `cdata s` is the literal byte block written directly
to the underlying writer, bypassing the encoder, and denotes the bytes
of the CDATA-guarded block around `s`. -/
inductive OutTok where
  | startTag : String → List Attr → OutTok
  | text : String → OutTok
  | endTag : String → OutTok
  | cdata : String → OutTok
  | other : String → OutTok
deriving DecidableEq, Repr

/-- Counter は、インクリメントする数値を管理します。  (rules.go) -/
structure Counter where
  current : Int
deriving DecidableEq, Repr

/-- Next はカウンターを1つ進めて、その新しい値を返します。  (rules.go:
`c.current++; return c.current`) — returns the new value and new state. -/
def Counter.Next (c : Counter) : Int × Counter :=
  (c.current + 1, { current := c.current + 1 })

/-- NameReplaceRule (rules.go). -/
structure NameReplaceRule where
  OldName : String
  NewName : String
deriving DecidableEq, Repr

/-- InsertBeforeRule (rules.go).  In Go the `Counter` field is a pointer
obtained from the counter registry by name (`counters[r.Counter]` in
runTransform), `nil` when the name is absent; here the rule carries the
registry name and the run state carries the registry itself, which models
the pointer sharing across rules naming the same counter. -/
structure InsertBeforeRule where
  TargetTag : String
  XMLTemplate : String
  Counter : Option String
deriving DecidableEq, Repr

/-- ValueReplaceRule (rules.go): target tag plus the replacement function. -/
structure ValueReplaceRule where
  TargetTag : String
  ReplacementFunc : String → String

/-- WrapRule (rules.go). -/
structure WrapRule where
  TargetTag : String
  WrapperTag : String
deriving DecidableEq, Repr

/-- CdataRule (rules.go). -/
structure CdataRule where
  Old : String
  New : String
deriving DecidableEq, Repr

/-- Immutable rule fields of Go's `processor` struct (final snapshot):
nameRules, insertRules, insertAfterRules, prependChildRules, valueRules,
wrapRuleMap (kept as the list it is built from), cdataRules, rawTagMap
(kept as the list it is built from). -/
structure Rules where
  nameRules : List NameReplaceRule
  insertRules : List InsertBeforeRule
  insertAfterRules : List InsertBeforeRule
  prependChildRules : List InsertBeforeRule
  valueRules : List ValueReplaceRule
  wrapRules : List WrapRule
  cdataRules : List CdataRule
  rawTags : List String

/-- Rule set with every list empty. -/
def emptyRules : Rules :=
  { nameRules := [], insertRules := [], insertAfterRules := [],
    prependChildRules := [], valueRules := [], wrapRules := [],
    cdataRules := [], rawTags := [] }

/-- Lookup in the wrapRuleMap.  newProcessor builds a Go map by inserting
each WrapRule in order (`wrapMap[rule.TargetTag] = rule.WrapperTag`), so
the last rule for a given target wins; looking the built map up by key is
therefore finding the last matching rule. -/
def wrapLookup (rs : List WrapRule) (k : String) : Option String :=
  (rs.reverse.find? (fun r => r.TargetTag == k)).map (fun r => r.WrapperTag)

/-- Counter registry: maps counter names to current values (the `counters`
map built in runTransform, holding each Counter's mutable state). -/
abbrev Counters := List (String × Int)

/-- Read a counter's current value from the registry. -/
def cLookup : Counters → String → Option Int
  | [], _ => none
  | p :: rest, k => if p.1 == k then some p.2 else cLookup rest k

/-- Store a counter's value in the registry (in-place pointer mutation in
Go). -/
def cSet (cs : Counters) (k : String) (v : Int) : Counters :=
  match cs with
  | [] => [(k, v)]
  | p :: rest => if p.1 == k then (k, v) :: rest else p :: cSet rest k v

/-- Boolean prefix test on character lists. -/
def leadsWith : List Char → List Char → Bool
  | [], _ => true
  | _ :: _, [] => false
  | a :: as, b :: bs => a == b && leadsWith as bs

/-- Replace every (non-overlapping, left-to-right) occurrence of `old` in
the list by `new`, for `old` nonempty.  Structural recursion on a fuel
argument so the kernel can evaluate it; every step consumes at least one
character, so fuel equal to the list's length suffices. -/
def replAll (old new : List Char) : Nat → List Char → List Char
  | 0, l => l
  | _ + 1, [] => []
  | fuel + 1, c :: rest =>
    if leadsWith old (c :: rest) && !old.isEmpty then
      new ++ replAll old new fuel (rest.drop (old.length - 1))
    else
      c :: replAll old new fuel rest

/-- strings.ReplaceAll from the Go standard library, as used by
handleCharData on raw text: every occurrence of `old` is replaced by
`new`, scanning left to right without overlap; with an empty `old`, Go
inserts `new` before every character and at the end. -/
def goReplaceAll (s old new : String) : String :=
  if old.isEmpty then
    String.mk (new.data ++ s.data.flatMap (fun c => c :: new.data))
  else
    String.mk (replAll old.data new.data s.data.length s.data)

/-- Replace the first occurrence of `old` in the list by `new`. -/
def replFirst (old new : List Char) : List Char → List Char
  | [] => []
  | c :: rest =>
    if leadsWith old (c :: rest) then
      new ++ (c :: rest).drop old.length
    else
      c :: replFirst old new rest

/-- Does `sub` occur as a contiguous sublist? -/
def containsSub (sub : List Char) : List Char → Bool
  | [] => leadsWith sub []
  | c :: rest => leadsWith sub (c :: rest) || containsSub sub rest

/-- fmt.Sprintf with one Int argument, for the template shapes the spec
prescribes for InsertBeforeRule ("a format string with a single integer
placeholder or none"): the first `%d` is replaced by the decimal rendering
of `n`; a template without `%d` gets Go's EXTRA-argument suffix. -/
def sprintfD (tmpl : String) (n : Int) : String :=
  if containsSub ['%', 'd'] tmpl.data then
    String.mk (replFirst ['%', 'd'] (toString n).data tmpl.data)
  else
    tmpl ++ "%!(EXTRA int=" ++ toString n ++ ")"

/-- Counter step of fragment expansion (handleStartElement /
handleEndElement): `if rule.Counter != nil { count := rule.Counter.Next();
fragment = fmt.Sprintf(rule.XMLTemplate, count) } else { fragment =
rule.XMLTemplate }`.  An absent registry entry is Go's nil pointer: the
template is used verbatim. -/
def applyCounter (cs : Counters) (cname : Option String) (tmpl : String) :
    String × Counters :=
  match cname with
  | none => (tmpl, cs)
  | some k =>
    match cLookup cs k with
    | none => (tmpl, cs)
    | some cur =>
      let r := Counter.Next { current := cur }
      (sprintfD tmpl r.1, cSet cs k r.2.current)

/-- Abstract fragment tokenizer: the external xml.Decoder spun up on a
fragment string, yielding its events or a decode error. -/
abbrev Tokenizer := String → Except String (List Event)

/-- Fragment events are fed straight into encoder.EncodeToken: no rules,
no sanitation, no stack interaction. -/
def encodeEvent : Event → OutTok
  | .startTag n a => .startTag n a
  | .text s => .text s
  | .endTag n => .endTag n
  | .other d => .other d

/-- Expansion of a single insert rule: counter substitution into the
template, then re-tokenization of the fragment and encoding of each of
its tokens (the inner `for { token := fragmentDecoder.Token(); ...
p.encoder.EncodeToken(token) }` loop). -/
def expandFragment (tok : Tokenizer) (cs : Counters) (r : InsertBeforeRule) :
    Except String (List OutTok × Counters) :=
  match tok (applyCounter cs r.Counter r.XMLTemplate).1 with
  | .error e => .error e
  | .ok evs => .ok (evs.map encodeEvent,
                    (applyCounter cs r.Counter r.XMLTemplate).2)

/-- The `for _, rule := range rules { if name == rule.TargetTag { ... } }`
splice loop over a list of insert rules: fragments of matching rules are
emitted in declared order, threading counter state. -/
def expandInserts (tok : Tokenizer) (name : String)
    (rules : List InsertBeforeRule) (cs : Counters) :
    Except String (List OutTok × Counters) :=
  match rules with
  | [] => .ok ([], cs)
  | r :: rest =>
    if name == r.TargetTag then
      match expandFragment tok cs r with
      | .error e => .error e
      | .ok (out1, cs1) =>
        match expandInserts tok name rest cs1 with
        | .error e => .error e
        | .ok (out2, cs2) => .ok (out1 ++ out2, cs2)
    else
      expandInserts tok name rest cs

/-- Mutable state of Go's `processor` during a run: the element stack
(top first; entries are the processed start elements that were pushed),
the counter registry, and the output emitted so far. -/
structure ProcState where
  elementStack : List (String × List Attr)
  counters : Counters
  output : List OutTok
deriving Repr

/-- The tag-name replacement loop of handleStartElement: scan nameRules in
order, rename on the first rule whose OldName matches, then break. -/
def applyNameRules (rules : List NameReplaceRule) (name : String) : String :=
  match rules with
  | [] => name
  | r :: rest => if name == r.OldName then r.NewName else applyNameRules rest name

/-- Attribute sanitation of handleStartElement: a value at least two
characters long whose first and last characters are both `"` has exactly
that leading and trailing character stripped (`attr.Value[1:len-1]`);
anything else is untouched. -/
def sanitizeAttr (a : Attr) : Attr :=
  let v := a.value.data
  if 2 ≤ v.length ∧ v.head? = some '"' ∧ v.getLast? = some '"' then
    { a with value := String.mk (v.drop 1).dropLast }
  else a

/-- Wrapper start tokens for a (post-rename) element name: the
`if wrapperTag, found := p.wrapRuleMap[...]; found { EncodeToken(wrapperSE) }`
step, as the emitted token list. -/
def wrapOpen (rules : Rules) (n : String) : List OutTok :=
  match wrapLookup rules.wrapRules n with
  | some w => [OutTok.startTag w []]
  | none => []

/-- Wrapper end tokens for a popped element name. -/
def wrapClose (rules : Rules) (n : String) : List OutTok :=
  match wrapLookup rules.wrapRules n with
  | some w => [OutTok.endTag w]
  | none => []

/-- handleStartElement (final processor snapshot): splice insert-before
fragments keyed on the input name; rename by the first matching name rule;
sanitize attributes; emit the processed start tag and push it; emit the
wrapper start tag (not pushed) when a wrap rule targets the new name;
splice prepend-child fragments keyed on the new name. -/
def handleStartElement (rules : Rules) (tok : Tokenizer) (st : ProcState)
    (name : String) (attrs : List Attr) : Except String ProcState :=
  match expandInserts tok name rules.insertRules st.counters with
  | .error e => .error e
  | .ok (beforeToks, cs1) =>
    match expandInserts tok (applyNameRules rules.nameRules name)
        rules.prependChildRules cs1 with
    | .error e => .error e
    | .ok (prependToks, cs2) =>
      .ok { elementStack := (applyNameRules rules.nameRules name,
                             attrs.map sanitizeAttr) :: st.elementStack,
            counters := cs2,
            output := st.output ++ beforeToks
                      ++ [OutTok.startTag (applyNameRules rules.nameRules name)
                            (attrs.map sanitizeAttr)]
                      ++ wrapOpen rules (applyNameRules rules.nameRules name)
                      ++ prependToks }

/-- Is the text whitespace-only?  Go: `len(strings.TrimSpace(string(cd)))
== 0` (whitespace here is ASCII whitespace). -/
def isWhitespaceOnly (s : String) : Bool :=
  s.data.all (fun c => c.isWhitespace)

/-- handleCharData (final processor snapshot): discard whitespace-only
text; if the enclosing element (top of stack, by output name) is a raw
tag, apply every CdataRule in declared order and emit the literal
CDATA-guarded block directly to the writer (after flushing the encoder,
which the token-level model renders as the block simply taking its place
in the output order); otherwise apply the first matching ValueReplaceRule
or pass the text through to the encoder. -/
def handleCharData (rules : Rules) (st : ProcState) (cd : String) :
    Except String ProcState :=
  if isWhitespaceOnly cd then
    .ok st
  else
    match st.elementStack with
    | [] => .ok { st with output := st.output ++ [OutTok.text cd] }
    | (n, _) :: _ =>
      if rules.rawTags.contains n then
        .ok { st with output := st.output ++
          [OutTok.cdata (rules.cdataRules.foldl
            (fun t r => goReplaceAll t r.Old r.New) cd)] }
      else
        match rules.valueRules.find? (fun r => r.TargetTag == n) with
        | some r =>
          .ok { st with output := st.output ++ [OutTok.text (r.ReplacementFunc cd)] }
        | none => .ok { st with output := st.output ++ [OutTok.text cd] }

/-- handleEndElement (final processor snapshot): error on an empty stack;
pop the last started element; emit the wrapper end tag when a wrap rule
targets the popped output name; emit the real end tag with the popped
output name; splice insert-after fragments keyed on the *input* end-tag
name. -/
def handleEndElement (rules : Rules) (tok : Tokenizer) (st : ProcState)
    (name : String) : Except String ProcState :=
  match st.elementStack with
  | [] => .error "invalid XML structure"
  | top :: restStack =>
    match expandInserts tok name rules.insertAfterRules st.counters with
    | .error e => .error e
    | .ok (afterToks, cs1) =>
      .ok { elementStack := restStack,
            counters := cs1,
            output := st.output ++ wrapClose rules top.1
                      ++ [OutTok.endTag top.1] ++ afterToks }

/-- One iteration of Run's token switch. -/
def processStep (rules : Rules) (tok : Tokenizer) (st : ProcState) :
    Event → Except String ProcState
  | .startTag n attrs => handleStartElement rules tok st n attrs
  | .text s => handleCharData rules st s
  | .endTag n => handleEndElement rules tok st n
  | .other d => .ok { st with output := st.output ++ [OutTok.other d] }

/-- Run's main loop from a given state: process events one at a time,
aborting on the first error. -/
def runFrom (rules : Rules) (tok : Tokenizer) (st : ProcState) :
    List Event → Except String ProcState
  | [] => .ok st
  | e :: rest =>
    match processStep rules tok st e with
    | .error err => .error err
    | .ok st' => runFrom rules tok st' rest

/-- Initial processor state: empty element stack, the configured counter
registry, nothing emitted. -/
def initState (cs0 : Counters) : ProcState :=
  { elementStack := [], counters := cs0, output := [] }

/-- Run over a whole event stream from the initial state. -/
def run (rules : Rules) (tok : Tokenizer) (cs0 : Counters)
    (events : List Event) : Except String ProcState :=
  runFrom rules tok (initState cs0) events

/-- Write は io.Writer インターフェースを実装します。  (crlfWriter):
`bytes.ReplaceAll(p, []byte{'\n'}, []byte{'\r', '\n'})` — with a
one-byte pattern this is the per-byte rewrite LF ↦ CR LF.  Bytes are
modelled as naturals. -/
def crlfWriter.Write (p : List Nat) : List Nat :=
  p.flatMap (fun b => if b == 10 then [13, 10] else [b])

/-- Adjacent-pair check: every byte 10 that follows some byte follows a
13. -/
def noBareLFAux : List Nat → Bool
  | a :: b :: rest => (!(b == 10) || (a == 13)) && noBareLFAux (b :: rest)
  | _ => true

/-- Spec-side predicate: no line-feed byte appears that is not immediately
preceded by a carriage-return byte (in particular the stream does not
start with a line feed). -/
def noBareLF (l : List Nat) : Bool :=
  (l.head? != some 10) && noBareLFAux l

/-- Number of StartTag events. -/
def countStarts : List Event → Nat
  | [] => 0
  | .startTag _ _ :: r => countStarts r + 1
  | _ :: r => countStarts r

/-- Number of EndTag events. -/
def countEnds : List Event → Nat
  | [] => 0
  | .endTag _ :: r => countEnds r + 1
  | _ :: r => countEnds r

/-- Well-formedness checker for an event stream relative to a stack of
open tag names: start tags push, end tags must match the top and pop, the
stream must close everything it opened. -/
def wfCheck (stk : List String) : List Event → Bool
  | [] => stk.isEmpty
  | Event.startTag n _ :: rest => wfCheck (n :: stk) rest
  | Event.endTag n :: rest =>
    match stk with
    | [] => false
    | m :: stk2 => m == n && wfCheck stk2 rest
  | Event.text _ :: rest => wfCheck stk rest
  | Event.other _ :: rest => wfCheck stk rest

/-- Spec-side description of the empty-rule-set output (refinement target,
following the spec's words): the input stream itself, with whitespace-only
text nodes discarded and attributes sanitized, tag nesting, tag names and
non-whitespace text unchanged. -/
def stripEvents : List Event → List OutTok
  | [] => []
  | Event.startTag n a :: r => OutTok.startTag n (a.map sanitizeAttr) :: stripEvents r
  | Event.text s :: r =>
    if isWhitespaceOnly s then stripEvents r else OutTok.text s :: stripEvents r
  | Event.endTag n :: r => OutTok.endTag n :: stripEvents r
  | Event.other d :: r => OutTok.other d :: stripEvents r

/-- Tokenizer that rejects every fragment; usable wherever no insert rule
fires. -/
def tokFail : Tokenizer := fun _ => Except.error "no tokenizer"

/-- Split a character list at the first `>`: the characters before it and
the remainder after it. -/
def splitAtGt : List Char → Option (List Char × List Char)
  | [] => none
  | c :: rest =>
    if c == '>' then some ([], rest)
    else (splitAtGt rest).map (fun p => (c :: p.1, p.2))

/-- Take the run of characters before the first `<` (text content) and
the remainder starting at that `<`. -/
def takeText : List Char → List Char × List Char
  | [] => ([], [])
  | c :: rest =>
    if c == '<' then ([], c :: rest)
    else
      let p := takeText rest
      (c :: p.1, p.2)

/-- Fuelled tokenizer loop; every produced token consumes at least one
character, so fuel `length + 1` always suffices. -/
def tokChunk : Nat → List Char → Except String (List Event)
  | 0, _ => .error "fragment tokenizer: out of fuel"
  | _ + 1, [] => .ok []
  | fuel + 1, '<' :: '/' :: rest =>
    match splitAtGt rest with
    | none => .error "unterminated end tag"
    | some (nm, rest2) =>
      match tokChunk fuel rest2 with
      | .error e => .error e
      | .ok evs => .ok (Event.endTag (String.mk nm) :: evs)
  | fuel + 1, '<' :: rest =>
    match splitAtGt rest with
    | none => .error "unterminated start tag"
    | some (nm, rest2) =>
      match tokChunk fuel rest2 with
      | .error e => .error e
      | .ok evs => .ok (Event.startTag (String.mk nm) [] :: evs)
  | fuel + 1, cs =>
    let p := takeText cs
    match tokChunk fuel p.2 with
    | .error e => .error e
    | .ok evs => .ok (Event.text (String.mk p.1) :: evs)

/-- Modelled from the spec: the external low-level tokenizer ("the
low-level tokenizer that turns raw bytes into a sequence of {start-tag,
text, end-tag, other} events (assumed correct and given)") is not part of
the repository; this concrete instance covers the fragment shapes the
witnesses use — start tags without attributes, end tags, and plain text. -/
def simpleTokenize : Tokenizer :=
  fun s => tokChunk (s.data.length + 1) s.data

/-- The splice loop over an empty rule list emits nothing and leaves the
counters alone. -/
theorem expandInserts_nil (tok : Tokenizer) (name : String) (cs : Counters) :
    expandInserts tok name [] cs = .ok ([], cs) := rfl

/-- Splice loop, matching head rule: its fragment comes first, then the
fragments of the remaining rules in declared order, with counter state
threaded through. -/
theorem expandInserts_cons_match {tok : Tokenizer} {name : String}
    {r : InsertBeforeRule} {rest : List InsertBeforeRule}
    {cs cs1 cs2 : Counters} {out1 out2 : List OutTok}
    (hm : name = r.TargetTag)
    (h1 : expandFragment tok cs r = .ok (out1, cs1))
    (h2 : expandInserts tok name rest cs1 = .ok (out2, cs2)) :
    expandInserts tok name (r :: rest) cs = .ok (out1 ++ out2, cs2) := by
  subst hm
  simp [expandInserts, h1, h2]

/-- Splice loop, non-matching head rule: it contributes nothing. -/
theorem expandInserts_cons_nomatch {tok : Tokenizer} {name : String}
    {r : InsertBeforeRule} {rest : List InsertBeforeRule} {cs : Counters}
    (hm : name ≠ r.TargetTag) :
    expandInserts tok name (r :: rest) cs = expandInserts tok name rest cs := by
  simp [expandInserts, hm]

/-- Successful handleStartElement, unpacked: the insert-before fragments
(keyed on the input name), the processed start tag, the wrapper start and
the prepend-child fragments (keyed on the post-rename name) are appended
to the output in that order, and exactly the processed element is pushed
onto the stack. -/
theorem handleStartElement_ok {rules : Rules} {tok : Tokenizer}
    {st st' : ProcState} {n : String} {attrs : List Attr}
    (h : handleStartElement rules tok st n attrs = .ok st') :
    ∃ bf cs1 pf cs2,
      expandInserts tok n rules.insertRules st.counters = .ok (bf, cs1) ∧
      expandInserts tok (applyNameRules rules.nameRules n)
          rules.prependChildRules cs1 = .ok (pf, cs2) ∧
      st' = { elementStack := (applyNameRules rules.nameRules n,
                attrs.map sanitizeAttr) :: st.elementStack,
              counters := cs2,
              output := st.output ++ bf
                ++ [OutTok.startTag (applyNameRules rules.nameRules n)
                      (attrs.map sanitizeAttr)]
                ++ wrapOpen rules (applyNameRules rules.nameRules n)
                ++ pf } := by
  unfold handleStartElement at h
  split at h
  · cases h
  next bf cs1 h1 =>
    split at h
    · cases h
    next pf cs2 h2 =>
      cases h
      exact ⟨bf, cs1, pf, cs2, h1, h2, rfl⟩

/-- Successful handleEndElement, unpacked: the stack was nonempty; its top
is popped; wrapper end (if a wrap rule targets the popped output name),
the real end tag carrying the popped output name, and the insert-after
fragments keyed on the *input* end-tag name are appended in that order. -/
theorem handleEndElement_ok {rules : Rules} {tok : Tokenizer}
    {st st' : ProcState} {n : String}
    (h : handleEndElement rules tok st n = .ok st') :
    ∃ top restStack af cs1,
      st.elementStack = top :: restStack ∧
      expandInserts tok n rules.insertAfterRules st.counters = .ok (af, cs1) ∧
      st' = { elementStack := restStack, counters := cs1,
              output := st.output ++ wrapClose rules top.1
                ++ [OutTok.endTag top.1] ++ af } := by
  unfold handleEndElement at h
  split at h
  · cases h
  next top restStack hstk =>
    split at h
    · cases h
    next af cs1 h1 =>
      cases h
      exact ⟨top, restStack, af, cs1, hstk, h1, rfl⟩

/-- handleCharData never touches the element stack or the counters. -/
theorem handleCharData_ok {rules : Rules} {st st' : ProcState} {cd : String}
    (h : handleCharData rules st cd = .ok st') :
    st'.elementStack = st.elementStack ∧ st'.counters = st.counters := by
  unfold handleCharData at h
  repeat' split at h
  all_goals cases h
  all_goals exact ⟨rfl, rfl⟩

/-- Stack-length bookkeeping of a successful run: every StartTag pushed
exactly one element and every EndTag popped exactly one, so the final
depth plus the number of EndTags equals the initial depth plus the number
of StartTags. -/
theorem runFrom_stack_length {rules : Rules} {tok : Tokenizer} :
    ∀ {evs : List Event} {st st' : ProcState},
      runFrom rules tok st evs = .ok st' →
      st'.elementStack.length + countEnds evs
        = st.elementStack.length + countStarts evs := by
  intro evs
  induction evs with
  | nil =>
    intro st st' h
    cases h
    simp [countStarts, countEnds]
  | cons e rest ih =>
    intro st st' h
    unfold runFrom at h
    split at h
    · cases h
    next st1 hs =>
      have hrest := ih h
      cases e with
      | startTag n a =>
        simp only [processStep] at hs
        obtain ⟨bf, cs1, pf, cs2, _, _, hshape⟩ := handleStartElement_ok hs
        subst hshape
        simp only [countStarts, countEnds, List.length_cons] at hrest ⊢
        omega
      | text s =>
        simp only [processStep] at hs
        obtain ⟨h1, _⟩ := handleCharData_ok hs
        rw [h1] at hrest
        simp only [countStarts, countEnds] at hrest ⊢
        omega
      | endTag n =>
        simp only [processStep] at hs
        obtain ⟨top, restStack, af, cs1, hstk, _, hshape⟩ := handleEndElement_ok hs
        subst hshape
        simp only [countStarts, countEnds, hstk, List.length_cons] at hrest ⊢
        omega
      | other d =>
        simp only [processStep] at hs
        cases hs
        simp only [countStarts, countEnds] at hrest ⊢
        omega

/-- Claim C1: each StartTag event pushes exactly one element onto the
Element Stack and each EndTag event pops exactly one; the stack is empty
before the first event and, on a completed run of a document with
balanced tags, empty after the last; and any EndTag processed while the
stack is empty aborts the run with the fatal structural error (no state,
hence no emitted token, results from that EndTag). -/
theorem C1_stack_discipline (rules : Rules) (tok : Tokenizer) :
    (∀ cs0, (initState cs0).elementStack = []) ∧
    (∀ st n attrs st', handleStartElement rules tok st n attrs = .ok st' →
        st'.elementStack.length = st.elementStack.length + 1) ∧
    (∀ st n st', handleEndElement rules tok st n = .ok st' →
        st.elementStack.length = st'.elementStack.length + 1) ∧
    (∀ st n rest, st.elementStack = [] →
        runFrom rules tok st (Event.endTag n :: rest)
          = .error "invalid XML structure") ∧
    (∀ cs0 events st', run rules tok cs0 events = .ok st' →
        countStarts events = countEnds events → st'.elementStack = []) := by
  refine ⟨fun _ => rfl, ?_, ?_, ?_, ?_⟩
  · intro st n attrs st' h
    obtain ⟨bf, cs1, pf, cs2, _, _, hshape⟩ := handleStartElement_ok h
    subst hshape
    simp
  · intro st n st' h
    obtain ⟨top, restStack, af, cs1, hstk, _, hshape⟩ := handleEndElement_ok h
    subst hshape
    simp [hstk]
  · intro st n rest hstk
    simp [runFrom, processStep, handleEndElement, hstk]
  · intro cs0 events st' h hbal
    have := runFrom_stack_length h
    simp only [run, initState] at this
    have hlen : st'.elementStack.length = 0 := by
      simp only [initState, List.length_nil] at this
      omega
    exact List.length_eq_zero.mp hlen

/-- Witness for C1: a lone EndTag on the empty initial stack aborts with
the structural error. -/
theorem C1_stack_discipline_witness :
    runFrom emptyRules tokFail (initState []) [Event.endTag "a"]
      = .error "invalid XML structure" :=
  (C1_stack_discipline emptyRules tokFail).2.2.2.1 (initState []) "a" [] rfl

/-- Claim C2: the name-rule loop fires at most once — it renames by the
first rule in declared order whose OldName equals the tag's name; the
renamed name is what gets pushed on the Element Stack, and the end tag is
emitted with the popped output name; a NameRule {database → records}
applied to `<database><id>1</id></database>` yields
`<records><id>1</id></records>`. -/
theorem C2_name_rule (rules : Rules) (tok : Tokenizer) :
    (∀ nrs name, applyNameRules nrs name =
      (match nrs.find? (fun r => name == r.OldName) with
       | some r => r.NewName
       | none => name)) ∧
    (∀ st n attrs st', handleStartElement rules tok st n attrs = .ok st' →
      st'.elementStack =
        (applyNameRules rules.nameRules n, attrs.map sanitizeAttr)
          :: st.elementStack) ∧
    (∀ st n top restStack st', st.elementStack = top :: restStack →
      handleEndElement rules tok st n = .ok st' →
      ∃ af, st'.output = st.output ++ wrapClose rules top.1
        ++ [OutTok.endTag top.1] ++ af) ∧
    (run { emptyRules with nameRules := [⟨"database", "records"⟩] } tokFail []
        [Event.startTag "database" [], Event.startTag "id" [],
         Event.text "1", Event.endTag "id", Event.endTag "database"] =
      .ok { elementStack := [], counters := [],
            output := [OutTok.startTag "records" [], OutTok.startTag "id" [],
                       OutTok.text "1", OutTok.endTag "id",
                       OutTok.endTag "records"] }) := by
  refine ⟨?_, ?_, ?_, rfl⟩
  · intro nrs name
    induction nrs with
    | nil => rfl
    | cons r rest ih =>
      by_cases h : name = r.OldName
      · simp [applyNameRules, List.find?_cons, h]
      · simp [applyNameRules, List.find?_cons, h, ih]
  · intro st n attrs st' h
    obtain ⟨bf, cs1, pf, cs2, _, _, hshape⟩ := handleStartElement_ok h
    subst hshape
    rfl
  · intro st n top restStack st' hstack h
    obtain ⟨top2, restStack2, af, cs1, hstk, _, hshape⟩ := handleEndElement_ok h
    rw [hstack] at hstk
    injection hstk with h1 h2
    subst hshape h1
    exact ⟨af, rfl⟩

/-- Witness for C2: the rename of a `database` start tag pushes the
renamed element `records` (with its sanitized attributes) on the stack. -/
theorem C2_name_rule_witness :
    ProcState.elementStack
        { elementStack := [("records", [])], counters := [],
          output := [OutTok.startTag "records" []] } =
      (applyNameRules [⟨"database", "records"⟩] "database",
        List.map sanitizeAttr []) :: (initState []).elementStack :=
  (C2_name_rule { emptyRules with nameRules := [⟨"database", "records"⟩] }
      tokFail).2.1 (initState []) "database" [] _ rfl

/-- Claim C3: when a wrap rule targets the post-rename name, the
synthetic wrapper start tag (no attributes) is emitted immediately after
the element's start tag and the wrapper is not pushed onto the stack; the
wrapper end tag is emitted immediately before the element's real end tag;
a WrapRule {item → payload} applied to `<item><a/><b/></item>` yields
`<item><payload><a/><b/></payload></item>`. -/
theorem C3_wrap_rule (rules : Rules) (tok : Tokenizer) :
    (∀ st n attrs st' w,
      wrapLookup rules.wrapRules (applyNameRules rules.nameRules n) = some w →
      handleStartElement rules tok st n attrs = .ok st' →
      st'.elementStack =
        (applyNameRules rules.nameRules n, attrs.map sanitizeAttr)
          :: st.elementStack ∧
      ∃ bf pf, st'.output = st.output ++ bf
        ++ [OutTok.startTag (applyNameRules rules.nameRules n)
              (attrs.map sanitizeAttr),
            OutTok.startTag w []] ++ pf) ∧
    (∀ st n top restStack st' w, st.elementStack = top :: restStack →
      wrapLookup rules.wrapRules top.1 = some w →
      handleEndElement rules tok st n = .ok st' →
      ∃ af, st'.output = st.output
        ++ [OutTok.endTag w, OutTok.endTag top.1] ++ af) ∧
    (run { emptyRules with wrapRules := [⟨"item", "payload"⟩] } tokFail []
        [Event.startTag "item" [], Event.startTag "a" [], Event.endTag "a",
         Event.startTag "b" [], Event.endTag "b", Event.endTag "item"] =
      .ok { elementStack := [], counters := [],
            output := [OutTok.startTag "item" [], OutTok.startTag "payload" [],
                       OutTok.startTag "a" [], OutTok.endTag "a",
                       OutTok.startTag "b" [], OutTok.endTag "b",
                       OutTok.endTag "payload", OutTok.endTag "item"] }) := by
  refine ⟨?_, ?_, rfl⟩
  · intro st n attrs st' w hw h
    obtain ⟨bf, cs1, pf, cs2, _, _, hshape⟩ := handleStartElement_ok h
    subst hshape
    refine ⟨rfl, bf, pf, ?_⟩
    simp [wrapOpen, hw]
  · intro st n top restStack st' w hstack hw h
    obtain ⟨top2, restStack2, af, cs1, hstk, _, hshape⟩ := handleEndElement_ok h
    rw [hstack] at hstk
    injection hstk with h1 h2
    subst hshape h1
    refine ⟨af, ?_⟩
    simp [wrapClose, hw]

/-- Witness for C3: opening `<item>` under a WrapRule {item → payload}
pushes only the item element and emits the wrapper start right after the
item start tag. -/
theorem C3_wrap_rule_witness :
    ProcState.elementStack
        { elementStack := [("item", [])], counters := [],
          output := [OutTok.startTag "item" [], OutTok.startTag "payload" []] } =
      (applyNameRules [] "item", List.map sanitizeAttr [])
        :: (initState []).elementStack ∧
    ∃ bf pf,
      ([OutTok.startTag "item" [], OutTok.startTag "payload" []] : List OutTok) =
        [] ++ bf ++ [OutTok.startTag (applyNameRules [] "item")
                       (List.map sanitizeAttr []),
                     OutTok.startTag "payload" []] ++ pf :=
  (C3_wrap_rule { emptyRules with wrapRules := [⟨"item", "payload"⟩] }
      tokFail).1 (initState []) "item" [] _ "payload" rfl rfl

/-- Claim C4: non-whitespace text under an element whose output name is a
raw tag has every CdataSubstitutionRule applied in declared order and is
emitted as a literal CDATA block, bypassing the escaping encoder (the
block is written straight to the writer after the encoder flush, which at
token level is its place in the output order); the script/&lt; example. -/
theorem C4_raw_cdata (rules : Rules) :
    (∀ st cd n a restStack,
      st.elementStack = (n, a) :: restStack →
      rules.rawTags.contains n = true →
      isWhitespaceOnly cd = false →
      handleCharData rules st cd =
        .ok { st with output := st.output ++
          [OutTok.cdata (rules.cdataRules.foldl
            (fun t r => goReplaceAll t r.Old r.New) cd)] }) ∧
    (goReplaceAll "a < b" "<" "&lt;" = "a &lt; b") ∧
    (run { emptyRules with rawTags := ["script"], cdataRules := [⟨"<", "&lt;"⟩] }
        tokFail []
        [Event.startTag "script" [], Event.text "a < b",
         Event.endTag "script"] =
      .ok { elementStack := [], counters := [],
            output := [OutTok.startTag "script" [], OutTok.cdata "a &lt; b",
                       OutTok.endTag "script"] }) := by
  refine ⟨?_, rfl, rfl⟩
  intro st cd n a restStack hstk hraw hws
  have hmem : n ∈ rules.rawTags := by simpa using hraw
  unfold handleCharData
  rw [hws, hstk]
  simp [hmem]

/-- Witness for C4: the concrete raw-text step on `a < b` inside
`<script>` yields the substituted CDATA block. -/
theorem C4_raw_cdata_witness :
    handleCharData
        { emptyRules with rawTags := ["script"], cdataRules := [⟨"<", "&lt;"⟩] }
        { elementStack := [("script", [])], counters := [], output := [] }
        "a < b" =
      .ok { elementStack := [("script", [])], counters := [],
            output := [OutTok.cdata "a &lt; b"] } := by
  have := (C4_raw_cdata
    { emptyRules with rawTags := ["script"], cdataRules := [⟨"<", "&lt;"⟩] }).1
    { elementStack := [("script", [])], counters := [], output := [] }
    "a < b" "script" [] [] rfl rfl rfl
  exact this

/-- Claim C8: attribute sanitation is unconditional (it happens on every
successful StartTag, whatever the rule set): a value at least two
characters long with a literal quote as both first and last character has
exactly that one leading and one trailing character stripped, and every
other value is left unchanged. -/
theorem C8_attr_sanitation (rules : Rules) (tok : Tokenizer) :
    (∀ a : Attr, 2 ≤ a.value.data.length → a.value.data.head? = some '"' →
      a.value.data.getLast? = some '"' →
      (sanitizeAttr a).name = a.name ∧
      a.value.data = '"' :: ((sanitizeAttr a).value.data ++ ['"'])) ∧
    (∀ a : Attr, ¬(2 ≤ a.value.data.length ∧ a.value.data.head? = some '"' ∧
        a.value.data.getLast? = some '"') → sanitizeAttr a = a) ∧
    (∀ st n attrs st', handleStartElement rules tok st n attrs = .ok st' →
      ∃ bf tail, st'.output = st.output ++ bf
        ++ OutTok.startTag (applyNameRules rules.nameRules n)
             (attrs.map sanitizeAttr) :: tail) := by
  refine ⟨?_, ?_, ?_⟩
  · intro a hlen hh hl
    cases hv : a.value.data with
    | nil => rw [hv] at hh; cases hh
    | cons c t =>
      rw [hv] at hh hl
      simp only [List.head?_cons, Option.some.injEq] at hh
      subst hh
      cases t with
      | nil => rw [hv] at hlen; simp at hlen
      | cons d t2 =>
        rw [List.getLast?_cons_cons] at hl
        have hsan : sanitizeAttr a =
            { a with value :=
                String.mk ((a.value.data.drop 1).dropLast) } := by
          unfold sanitizeAttr
          rw [if_pos ⟨hlen, by rw [hv]; rfl, by rw [hv, List.getLast?_cons_cons, hl]⟩]
        rw [hsan, hv]
        refine ⟨rfl, ?_⟩
        simp only [List.drop_succ_cons, List.drop_zero]
        rw [List.dropLast_append_getLast? '"' hl]
  · intro a hcond
    unfold sanitizeAttr
    rw [if_neg hcond]
  · intro st n attrs st' h
    obtain ⟨bf, cs1, pf, cs2, _, _, hshape⟩ := handleStartElement_ok h
    subst hshape
    exact ⟨bf, wrapOpen rules (applyNameRules rules.nameRules n) ++ pf, by simp⟩

/-- Witness for C8: the attribute value `"v"` (five characters with
literal quotes at both ends is `"v"` of length three here: quote, v,
quote) is stripped to `v`. -/
theorem C8_attr_sanitation_witness :
    (sanitizeAttr ⟨"k", "\"v\""⟩).name = (Attr.mk "k" "\"v\"").name ∧
    (Attr.mk "k" "\"v\"").value.data =
      '"' :: ((sanitizeAttr ⟨"k", "\"v\""⟩).value.data ++ ['"']) :=
  (C8_attr_sanitation emptyRules tokFail).1 ⟨"k", "\"v\""⟩
    (by decide) (by decide) (by decide)

/-- Claim C10: when the enclosing element's output name is both a raw tag
and the target of some ValueRule, the raw/CDATA path wins: the CdataRules
are applied and a literal CDATA block is emitted, and the ValueRule's
transform is never invoked — the result does not depend on the value-rule
list at all. -/
theorem C10_raw_over_value (rules : Rules) :
    (∀ st cd n a restStack,
      st.elementStack = (n, a) :: restStack →
      rules.rawTags.contains n = true →
      isWhitespaceOnly cd = false →
      (∃ r ∈ rules.valueRules, r.TargetTag = n) →
      handleCharData rules st cd =
        .ok { st with output := st.output ++
          [OutTok.cdata (rules.cdataRules.foldl
            (fun t r => goReplaceAll t r.Old r.New) cd)] } ∧
      (∀ vr, handleCharData { rules with valueRules := vr } st cd
          = handleCharData rules st cd)) ∧
    (handleCharData
        { emptyRules with
            rawTags := ["script"]
            valueRules := [⟨"script", fun s => "XFORM" ++ s⟩] }
        { elementStack := [("script", [])], counters := [], output := [] }
        "a < b" =
      .ok { elementStack := [("script", [])], counters := [],
            output := [OutTok.cdata "a < b"] }) := by
  refine ⟨?_, rfl⟩
  intro st cd n a restStack hstk hraw hws hvr
  have hmem : n ∈ rules.rawTags := by simpa using hraw
  constructor
  · unfold handleCharData
    rw [hws, hstk]
    simp [hmem]
  · intro vr
    unfold handleCharData
    rw [hws, hstk]
    simp [hmem]

/-- Witness for C10: with `script` both raw-tagged and value-ruled, the
text goes out as a CDATA block and swapping the value rules away changes
nothing. -/
theorem C10_raw_over_value_witness :
    handleCharData
        { emptyRules with
            rawTags := ["script"]
            valueRules := [⟨"script", fun s => "XFORM" ++ s⟩] }
        { elementStack := [("script", [])], counters := [], output := [] }
        "a < b" =
      .ok { elementStack := [("script", [])], counters := [],
            output := [OutTok.cdata "a < b"] } :=
  ((C10_raw_over_value
      { emptyRules with
          rawTags := ["script"]
          valueRules := [⟨"script", fun s => "XFORM" ++ s⟩] }).1
    { elementStack := [("script", [])], counters := [], output := [] }
    "a < b" "script" [] [] rfl rfl rfl
    ⟨⟨"script", fun s => "XFORM" ++ s⟩, by simp, rfl⟩).1

/-- Claim C5: each insertion-rule kind keys off its own tag identity —
insert-before rules match the input (pre-rename) start-tag name and their
fragments come before anything else for that tag, prepend-child rules
match the post-rename name and their fragments come right after the
wrapper start, insert-after rules match the input end-tag name and their
fragments come right after the emitted end tag; matching rules fire in
declared order. -/
theorem C5_insert_targets (rules : Rules) (tok : Tokenizer) :
    (∀ st n attrs st', handleStartElement rules tok st n attrs = .ok st' →
      ∃ bf cs1 pf cs2,
        expandInserts tok n rules.insertRules st.counters = .ok (bf, cs1) ∧
        expandInserts tok (applyNameRules rules.nameRules n)
            rules.prependChildRules cs1 = .ok (pf, cs2) ∧
        st'.output = st.output ++ bf
          ++ [OutTok.startTag (applyNameRules rules.nameRules n)
                (attrs.map sanitizeAttr)]
          ++ wrapOpen rules (applyNameRules rules.nameRules n) ++ pf) ∧
    (∀ st n top restStack st', st.elementStack = top :: restStack →
      handleEndElement rules tok st n = .ok st' →
      ∃ af cs1,
        expandInserts tok n rules.insertAfterRules st.counters = .ok (af, cs1) ∧
        st'.output = st.output ++ wrapClose rules top.1
          ++ [OutTok.endTag top.1] ++ af) ∧
    (∀ name r rest cs out1 cs1 out2 cs2, name = r.TargetTag →
      expandFragment tok cs r = .ok (out1, cs1) →
      expandInserts tok name rest cs1 = .ok (out2, cs2) →
      expandInserts tok name (r :: rest) cs = .ok (out1 ++ out2, cs2)) ∧
    (∀ name r rest cs, name ≠ r.TargetTag →
      expandInserts tok name (r :: rest) cs
        = expandInserts tok name rest cs) := by
  refine ⟨?_, ?_, ?_, ?_⟩
  · intro st n attrs st' h
    obtain ⟨bf, cs1, pf, cs2, h1, h2, hshape⟩ := handleStartElement_ok h
    subst hshape
    exact ⟨bf, cs1, pf, cs2, h1, h2, rfl⟩
  · intro st n top restStack st' hstack h
    obtain ⟨top2, restStack2, af, cs1, hstk, h1, hshape⟩ := handleEndElement_ok h
    rw [hstack] at hstk
    injection hstk with he1 he2
    subst hshape he1
    exact ⟨af, cs1, h1, rfl⟩
  · intro name r rest cs out1 cs1 out2 cs2 hm h1 h2
    exact expandInserts_cons_match hm h1 h2
  · intro name r rest cs hm
    exact expandInserts_cons_nomatch hm

/-- Witness for C5: an insert-before rule on `s` splices the tokenized
fragment `<x>hi</x>` ahead of the emitted start tag. -/
theorem C5_insert_targets_witness :
    ∃ bf cs1 pf cs2,
      expandInserts simpleTokenize "s" [⟨"s", "<x>hi</x>", none⟩] [] = .ok (bf, cs1) ∧
      expandInserts simpleTokenize (applyNameRules [] "s") [] cs1 = .ok (pf, cs2) ∧
      ProcState.output
          { elementStack := [("s", [])], counters := [],
            output := [OutTok.startTag "x" [], OutTok.text "hi",
                       OutTok.endTag "x", OutTok.startTag "s" []] } =
        (initState []).output ++ bf
          ++ [OutTok.startTag (applyNameRules [] "s") (List.map sanitizeAttr [])]
          ++ wrapOpen { emptyRules with insertRules := [⟨"s", "<x>hi</x>", none⟩] }
              (applyNameRules [] "s") ++ pf :=
  (C5_insert_targets { emptyRules with insertRules := [⟨"s", "<x>hi</x>", none⟩] }
      simpleTokenize).1 (initState []) "s" [] _ rfl

/-- Claim C9: the Output Normalizer's Write rewrites every line-feed byte
to carriage-return + line-feed before forwarding, alters no other byte,
and carries no state across calls (it distributes over concatenation of
writes), so no line feed in its output is ever unpaired. -/
theorem C9_crlf_writer :
    (∀ p q, crlfWriter.Write (p ++ q)
        = crlfWriter.Write p ++ crlfWriter.Write q) ∧
    (∀ p, 10 ∉ p → crlfWriter.Write p = p) ∧
    (∀ p, (crlfWriter.Write p).filter (fun b => !(b == 13))
        = p.filter (fun b => !(b == 13))) ∧
    (∀ p, noBareLF (crlfWriter.Write p) = true) := by
  have hcons : ∀ (b : Nat) (rest : List Nat), crlfWriter.Write (b :: rest)
      = (if b == 10 then [13, 10] else [b]) ++ crlfWriter.Write rest :=
    fun b rest => rfl
  refine ⟨?_, ?_, ?_, ?_⟩
  · intro p q
    exact List.flatMap_append p q _
  · intro p h
    induction p with
    | nil => rfl
    | cons b rest ih =>
      have hb : b ≠ 10 := fun hb => h (hb ▸ List.mem_cons_self b rest)
      have hrest : 10 ∉ rest := fun hr => h (List.mem_cons_of_mem b hr)
      rw [hcons, if_neg (by simpa using hb), ih hrest]
      rfl
  · intro p
    induction p with
    | nil => rfl
    | cons b rest ih =>
      rw [hcons]
      by_cases hb : b = 10
      · subst hb
        rw [if_pos (by decide), List.filter_append, ih]
        simp [List.filter_cons]
      · rw [if_neg (by simpa using hb)]
        have hone : ([b] ++ crlfWriter.Write rest) = b :: crlfWriter.Write rest := rfl
        rw [hone, List.filter_cons, List.filter_cons, ih]
  · intro p
    have main : ∀ l : List Nat, noBareLFAux (crlfWriter.Write l) = true ∧
        (crlfWriter.Write l).head? ≠ some 10 := by
      intro l
      induction l with
      | nil => exact ⟨rfl, by simp [crlfWriter.Write]⟩
      | cons b rest ih =>
        obtain ⟨ih1, ih2⟩ := ih
        rw [hcons]
        by_cases hb : b = 10
        · subst hb
          rw [if_pos (by decide)]
          constructor
          · show noBareLFAux (13 :: 10 :: crlfWriter.Write rest) = true
            cases hw : crlfWriter.Write rest with
            | nil => rfl
            | cons c tail =>
              have hc : c ≠ 10 := by rw [hw] at ih2; simpa using ih2
              rw [hw] at ih1
              simp [noBareLFAux, hc, ih1]
          · show (13 :: 10 :: crlfWriter.Write rest : List Nat).head? ≠ some 10
            simp
        · rw [if_neg (by simpa using hb)]
          constructor
          · show noBareLFAux (b :: crlfWriter.Write rest) = true
            cases hw : crlfWriter.Write rest with
            | nil => rfl
            | cons c tail =>
              have hc : c ≠ 10 := by rw [hw] at ih2; simpa using ih2
              rw [hw] at ih1
              simp [noBareLFAux, hc, ih1]
          · show (b :: crlfWriter.Write rest : List Nat).head? ≠ some 10
            simpa using hb
    obtain ⟨h1, h2⟩ := main p
    simp [noBareLF, h1, h2]

/-- Witness for C9: a write without line feeds is forwarded unchanged. -/
theorem C9_crlf_writer_witness :
    crlfWriter.Write [72, 105] = [72, 105] :=
  C9_crlf_writer.2.1 [72, 105] (by decide)

/-- Registry lookup after a write at the written key. -/
theorem cLookup_cSet_self (cs : Counters) (k : String) (v : Int) :
    cLookup (cSet cs k v) k = some v := by
  induction cs with
  | nil => simp [cSet, cLookup]
  | cons p rest ih =>
    by_cases h : p.1 = k
    · simp [cSet, cLookup, h]
    · simp [cSet, cLookup, h, ih]

/-- Registry lookup after a write at any other key. -/
theorem cLookup_cSet_ne (cs : Counters) {k k' : String} (v : Int)
    (h : k' ≠ k) : cLookup (cSet cs k v) k' = cLookup cs k' := by
  induction cs with
  | nil => simp [cSet, cLookup, Ne.symm h]
  | cons p rest ih =>
    by_cases hp : p.1 = k
    · simp [cSet, cLookup, hp, Ne.symm h]
    · simp [cSet, cLookup, hp, ih]

/-- Registry ordering: every counter present on the left is present on
the right with a value at least as large. -/
def countersLE (a b : Counters) : Prop :=
  ∀ k v, cLookup a k = some v → ∃ w, cLookup b k = some w ∧ v ≤ w

/-- countersLE is reflexive. -/
theorem countersLE_refl (a : Counters) : countersLE a a :=
  fun _ v h => ⟨v, h, le_refl v⟩

/-- countersLE is transitive. -/
theorem countersLE_trans {a b c : Counters}
    (h1 : countersLE a b) (h2 : countersLE b c) : countersLE a c := by
  intro k v hv
  obtain ⟨w, hw, hvw⟩ := h1 k v hv
  obtain ⟨x, hx, hwx⟩ := h2 k w hw
  exact ⟨x, hx, le_trans hvw hwx⟩

/-- Writing a not-smaller value to a present key only moves the registry
up. -/
theorem cSet_le_of_lookup {cs : Counters} {k : String} {cur v : Int}
    (hk : cLookup cs k = some cur) (hle : cur ≤ v) :
    countersLE cs (cSet cs k v) := by
  intro k' w hw
  by_cases h : k' = k
  · subst h
    rw [hw] at hk
    injection hk with hk
    refine ⟨v, cLookup_cSet_self cs k' v, ?_⟩
    omega
  · refine ⟨w, ?_, le_refl w⟩
    rw [cLookup_cSet_ne cs v h]
    exact hw

/-- The counter step of a fragment expansion never decreases any
counter. -/
theorem applyCounter_le (cs : Counters) (c : Option String) (t : String) :
    countersLE cs (applyCounter cs c t).2 := by
  cases c with
  | none => exact countersLE_refl cs
  | some k =>
    cases hk : cLookup cs k with
    | none => simp only [applyCounter, hk]; exact countersLE_refl cs
    | some cur =>
      simp only [applyCounter, hk, Counter.Next]
      exact cSet_le_of_lookup hk (by omega)

/-- A successful fragment expansion never decreases any counter. -/
theorem expandFragment_le {tok : Tokenizer} {cs cs' : Counters}
    {r : InsertBeforeRule} {out : List OutTok}
    (h : expandFragment tok cs r = .ok (out, cs')) :
    countersLE cs cs' := by
  unfold expandFragment at h
  split at h
  · cases h
  next evs htok =>
    injection h with h
    have hcs : (applyCounter cs r.Counter r.XMLTemplate).2 = cs' :=
      congrArg Prod.snd h
    rw [← hcs]
    exact applyCounter_le cs r.Counter r.XMLTemplate

/-- A successful splice loop never decreases any counter. -/
theorem expandInserts_le {tok : Tokenizer} {name : String} :
    ∀ {rs : List InsertBeforeRule} {cs cs' : Counters} {out : List OutTok},
      expandInserts tok name rs cs = .ok (out, cs') → countersLE cs cs' := by
  intro rs
  induction rs with
  | nil =>
    intro cs cs' out h
    cases h
    exact countersLE_refl _
  | cons r rest ih =>
    intro cs cs' out h
    unfold expandInserts at h
    split at h
    · split at h
      · cases h
      next out1 cs1 h1 =>
        split at h
        · cases h
        next out2 cs2 h2 =>
          cases h
          exact countersLE_trans (expandFragment_le h1) (ih h2)
    · exact ih h

/-- A successful event step never decreases any counter. -/
theorem processStep_le {rules : Rules} {tok : Tokenizer} {st st' : ProcState}
    {e : Event} (h : processStep rules tok st e = .ok st') :
    countersLE st.counters st'.counters := by
  cases e with
  | startTag n a =>
    simp only [processStep] at h
    obtain ⟨bf, cs1, pf, cs2, h1, h2, hshape⟩ := handleStartElement_ok h
    subst hshape
    exact countersLE_trans (expandInserts_le h1) (expandInserts_le h2)
  | text s =>
    simp only [processStep] at h
    obtain ⟨-, hc⟩ := handleCharData_ok h
    rw [hc]
    exact countersLE_refl _
  | endTag n =>
    simp only [processStep] at h
    obtain ⟨top, restStack, af, cs1, hstk, h1, hshape⟩ := handleEndElement_ok h
    subst hshape
    exact expandInserts_le h1
  | other d =>
    simp only [processStep] at h
    cases h
    exact countersLE_refl _

/-- A successful run never decreases any counter: counters never reset. -/
theorem runFrom_le {rules : Rules} {tok : Tokenizer} :
    ∀ {evs : List Event} {st st' : ProcState},
      runFrom rules tok st evs = .ok st' →
      countersLE st.counters st'.counters := by
  intro evs
  induction evs with
  | nil =>
    intro st st' h
    cases h
    exact countersLE_refl _
  | cons e rest ih =>
    intro st st' h
    unfold runFrom at h
    split at h
    · cases h
    next st1 hs => exact countersLE_trans (processStep_le hs) (ih h)

/-- Claim C6: Counter.Next increments the current value then returns it;
a fragment expansion whose rule names a registered counter advances
exactly that counter by exactly one (and no other); counters never reset
within a run (a completed run only moves registry values up); and on two
occurrences of `status` in one document with counter `c` starting at 0,
the rule with template `<A>value1</A><B>%d</B>` produces `<B>1</B>` at
the first occurrence and `<B>2</B>` at the second. -/
theorem C6_counter (rules : Rules) (tok : Tokenizer) :
    (∀ c : Counter, Counter.Next c = (c.current + 1, ⟨c.current + 1⟩)) ∧
    (∀ cs r out cs' k v, r.Counter = some k → cLookup cs k = some v →
      expandFragment tok cs r = .ok (out, cs') →
      cs' = cSet cs k (v + 1) ∧ cLookup cs' k = some (v + 1) ∧
      ∀ k', k' ≠ k → cLookup cs' k' = cLookup cs k') ∧
    (∀ cs0 events st', run rules tok cs0 events = .ok st' →
      countersLE cs0 st'.counters) ∧
    (run { emptyRules with
        insertRules := [⟨"status", "<A>value1</A><B>%d</B>", some "c"⟩] }
      simpleTokenize [("c", 0)]
      [Event.startTag "root" [], Event.startTag "status" [],
       Event.endTag "status", Event.startTag "status" [],
       Event.endTag "status", Event.endTag "root"] =
    .ok { elementStack := [], counters := [("c", 2)],
          output :=
            [OutTok.startTag "root" [],
             OutTok.startTag "A" [], OutTok.text "value1", OutTok.endTag "A",
             OutTok.startTag "B" [], OutTok.text "1", OutTok.endTag "B",
             OutTok.startTag "status" [], OutTok.endTag "status",
             OutTok.startTag "A" [], OutTok.text "value1", OutTok.endTag "A",
             OutTok.startTag "B" [], OutTok.text "2", OutTok.endTag "B",
             OutTok.startTag "status" [], OutTok.endTag "status",
             OutTok.endTag "root"] }) := by
  refine ⟨fun c => rfl, ?_, ?_, rfl⟩
  · intro cs r out cs' k v hk hv h
    unfold expandFragment at h
    split at h
    · cases h
    next evs htok =>
      injection h with h
      have hcs : (applyCounter cs r.Counter r.XMLTemplate).2 = cs' :=
        congrArg Prod.snd h
      rw [hk] at hcs
      simp only [applyCounter, hv, Counter.Next] at hcs
      subst hcs
      exact ⟨rfl, cLookup_cSet_self cs k (v + 1),
        fun k' hk' => cLookup_cSet_ne cs (v + 1) hk'⟩
  · intro cs0 events st' h
    exact runFrom_le h

/-- Witness for C6: expanding the status rule once on the registry
{c ↦ 0} moves exactly `c` to 1. -/
theorem C6_counter_witness :
    ([("c", 1)] : Counters) = cSet [("c", 0)] "c" (0 + 1) ∧
    cLookup [("c", 1)] "c" = some (0 + 1) :=
  ⟨((C6_counter emptyRules simpleTokenize).2.1 [("c", 0)]
      ⟨"status", "<A>value1</A><B>%d</B>", some "c"⟩
      [OutTok.startTag "A" [], OutTok.text "value1", OutTok.endTag "A",
       OutTok.startTag "B" [], OutTok.text "1", OutTok.endTag "B"]
      [("c", 1)] "c" 0 rfl rfl rfl).1,
   ((C6_counter emptyRules simpleTokenize).2.1 [("c", 0)]
      ⟨"status", "<A>value1</A><B>%d</B>", some "c"⟩
      [OutTok.startTag "A" [], OutTok.text "value1", OutTok.endTag "A",
       OutTok.startTag "B" [], OutTok.text "1", OutTok.endTag "B"]
      [("c", 1)] "c" 0 rfl rfl rfl).2.1⟩

/-- The run loop on a nonempty stream, unfolded. -/
theorem runFrom_cons (rules : Rules) (tok : Tokenizer) (st : ProcState)
    (e : Event) (rest : List Event) :
    runFrom rules tok st (e :: rest) =
      match processStep rules tok st e with
      | .error err => .error err
      | .ok st1 => runFrom rules tok st1 rest := rfl

/-- One successful step unfolds the run loop. -/
theorem runFrom_cons_ok {rules : Rules} {tok : Tokenizer}
    {st st1 : ProcState} {e : Event} {rest : List Event}
    (h : processStep rules tok st e = .ok st1) :
    runFrom rules tok st (e :: rest) = runFrom rules tok st1 rest := by
  rw [runFrom_cons, h]

/-- With the empty rule set, a run over a suffix that is well formed
relative to the currently open tags succeeds, closes everything, leaves
the counters alone and appends exactly the stripped input events. -/
theorem runFrom_emptyRules (tok : Tokenizer) :
    ∀ (evs : List Event) (st : ProcState),
      wfCheck (st.elementStack.map Prod.fst) evs = true →
      runFrom emptyRules tok st evs =
        .ok { elementStack := [], counters := st.counters,
              output := st.output ++ stripEvents evs } := by
  intro evs
  induction evs with
  | nil =>
    intro st h
    simp only [wfCheck] at h
    have hstk : st.elementStack = [] :=
      List.map_eq_nil_iff.mp (List.isEmpty_iff.mp h)
    obtain ⟨stk, cs, out⟩ := st
    simp only at hstk
    subst hstk
    simp [runFrom, stripEvents]
  | cons e rest ih =>
    intro st h
    cases e with
    | startTag n a =>
      simp only [wfCheck] at h
      have hstep : processStep emptyRules tok st (Event.startTag n a) =
          .ok { elementStack := (n, a.map sanitizeAttr) :: st.elementStack,
                counters := st.counters,
                output := st.output
                  ++ [OutTok.startTag n (a.map sanitizeAttr)] } := by
        simp [processStep, handleStartElement, expandInserts, emptyRules,
          applyNameRules, wrapOpen, wrapLookup]
      rw [runFrom_cons_ok hstep]
      have hwf : wfCheck
          ((({ elementStack := (n, a.map sanitizeAttr) :: st.elementStack,
               counters := st.counters,
               output := st.output ++ [OutTok.startTag n (a.map sanitizeAttr)] }
             : ProcState)).elementStack.map Prod.fst) rest = true := by
        simpa using h
      rw [ih _ hwf]
      simp [stripEvents]
    | text s =>
      simp only [wfCheck] at h
      by_cases hws : isWhitespaceOnly s
      · have hstep : processStep emptyRules tok st (Event.text s) = .ok st := by
          simp [processStep, handleCharData, hws]
        rw [runFrom_cons_ok hstep, ih st h]
        simp [stripEvents, hws]
      · have hstep : processStep emptyRules tok st (Event.text s) =
            .ok { st with output := st.output ++ [OutTok.text s] } := by
          simp only [processStep]
          cases hstk : st.elementStack with
          | nil => simp [handleCharData, hws, hstk]
          | cons top stk2 =>
            obtain ⟨tn, ta⟩ := top
            simp [handleCharData, hws, hstk, emptyRules]
        rw [runFrom_cons_ok hstep]
        have hwf : wfCheck
            ((({ st with output := st.output ++ [OutTok.text s] }
               : ProcState)).elementStack.map Prod.fst) rest = true := by
          simpa using h
        rw [ih _ hwf]
        simp [stripEvents, hws]
    | endTag n =>
      cases hstk : st.elementStack with
      | nil =>
        rw [hstk] at h
        simp [wfCheck] at h
      | cons top stk2 =>
        rw [hstk] at h
        obtain ⟨tn, ta⟩ := top
        simp only [List.map_cons, wfCheck] at h
        rw [Bool.and_eq_true] at h
        obtain ⟨hname, hrest⟩ := h
        have hname2 : tn = n := by simpa using hname
        have hstep : processStep emptyRules tok st (Event.endTag n) =
            .ok { elementStack := stk2, counters := st.counters,
                  output := st.output ++ [OutTok.endTag n] } := by
          simp [processStep, handleEndElement, hstk, expandInserts, emptyRules,
            wrapClose, wrapLookup, hname2]
        rw [runFrom_cons_ok hstep]
        have hwf : wfCheck
            ((({ elementStack := stk2, counters := st.counters,
                 output := st.output ++ [OutTok.endTag n] }
               : ProcState)).elementStack.map Prod.fst) rest = true := by
          simpa using hrest
        rw [ih _ hwf]
        simp [stripEvents]
    | other d =>
      simp only [wfCheck] at h
      have hstep : processStep emptyRules tok st (Event.other d) =
          .ok { st with output := st.output ++ [OutTok.other d] } := rfl
      rw [runFrom_cons_ok hstep]
      have hwf : wfCheck
          ((({ st with output := st.output ++ [OutTok.other d] }
             : ProcState)).elementStack.map Prod.fst) rest = true := by
        simpa using h
      rw [ih _ hwf]
      simp [stripEvents]

/-- Claim C7: with an empty rule set, a run over a well-formed document
succeeds and its output is structurally identical to the input — the same
tag nesting and tag names and the same non-whitespace text — except that
whitespace-only text nodes are discarded. -/
theorem C7_empty_rules_passthrough (tok : Tokenizer) :
    ∀ cs0 events, wfCheck [] events = true →
      run emptyRules tok cs0 events =
        .ok { elementStack := [], counters := cs0,
              output := stripEvents events } := by
  intro cs0 events h
  have hrun := runFrom_emptyRules tok events (initState cs0) (by simpa using h)
  simpa [run, initState] using hrun

/-- Witness for C7: a small well-formed document with a whitespace-only
text node passes through with only that node dropped. -/
theorem C7_empty_rules_passthrough_witness :
    run emptyRules tokFail []
        [Event.startTag "a" [], Event.text " ", Event.text "x",
         Event.endTag "a"] =
      .ok { elementStack := [], counters := [],
            output := stripEvents
              [Event.startTag "a" [], Event.text " ", Event.text "x",
               Event.endTag "a"] } :=
  C7_empty_rules_passthrough tokFail []
    [Event.startTag "a" [], Event.text " ", Event.text "x", Event.endTag "a"]
    (by decide)

end ObuFuku

